import Mathlib

/-
Verification development for the gitree items-selection pipeline.

The Python sources embedded here:
  gitree/services/items_selection/path_resolver.py   (PathResolver)
  gitree/services/items_selection/filter_applier.py  (FilterApplier)
  gitree/services/items_selection/items_selection_service.py (ItemsSelectionService)
  gitree/objects/gitignore.py                        (GitIgnore)
  gitree/utilities/gitignore_utility.py              (GitIgnoreMatcher)

Modelling conventions:
  - A filesystem path is an anchor (drive or root, "/" on POSIX) plus a list
    of name components; this matches pathlib Path components after
    resolve(strict=False) on a symlink-free filesystem.
  - Python functions that terminate the process (error_and_exit, exit(1),
    or an uncaught exception) are modelled with Except String; a returned
    Except.error corresponds to a non-zero process exit.
  - Python dict caches keyed by str(path) are modelled as association lists
    keyed by the path value itself: on canonical Path objects str is
    injective, so the keying is equivalent.
  - The pure per-string caches of PathResolver (_resolved_cache, _glob_cache)
    and GitIgnore (_rel_path_cache) memoize functions of the fixed filesystem
    and input string only, so they are omitted; the stateful exclusion cache
    of GitIgnoreMatcher, whose transparency is itself a claim, is modelled
    in full.
-/

/-- An absolute, normalized filesystem path: an anchor (drive or root) plus
name components.  Mirrors a pathlib Path after resolve(strict=False). -/
structure AbsPath where
  anchor : String
  segs : List String
deriving DecidableEq

/-- Python Path.name: the final path component, or the empty string for a
root path. -/
def AbsPath.name (p : AbsPath) : String :=
  p.segs.getLast?.getD ""

/-- Character-list prefix test (kernel-reducible replacement for
String.startsWith). -/
def listIsPreC : List Char → List Char → Bool
  | [], _ => true
  | _ :: _, [] => false
  | a :: as, b :: bs => a == b && listIsPreC as bs

/-- Python s.startswith(pre). -/
def strStartsWith (s pre : String) : Bool :=
  listIsPreC pre.toList s.toList

/-- Python slice s[n:] on code points. -/
def strDrop (s : String) (n : Nat) : String :=
  String.mk (s.toList.drop n)

/-- Python s.lower restricted to ASCII case mapping. -/
def strToLower (s : String) : String :=
  String.mk (s.toList.map Char.toLower)

/-- Python s.strip(): remove leading and trailing whitespace. -/
def strTrim (s : String) : String :=
  String.mk (((s.toList.dropWhile Char.isWhitespace).reverse.dropWhile
    Char.isWhitespace).reverse)

/-- Helper of splitSlash: accumulate the current component (reversed). -/
def splitSlashAux : List Char → List Char → List String
  | [], acc => [String.mk acc.reverse]
  | c :: cs, acc =>
    if c == '/' then String.mk acc.reverse :: splitSlashAux cs []
    else splitSlashAux cs (c :: acc)

/-- Split a string on slashes (kernel-reducible replacement for
String.splitOn with a slash separator). -/
def splitSlash (s : String) : List String :=
  splitSlashAux s.toList []

/-- Boolean list prefix test used to model pathlib relative_to /
is_relative_to on path components. -/
def listIsPre : List String → List String → Bool
  | [], _ => true
  | _ :: _, [] => false
  | a :: as, b :: bs => a == b && listIsPre as bs

/-- Python Path.relative_to on canonical paths: the remaining components
when root is an ancestor of (or equal to) p, otherwise none (the Python
call raises ValueError). -/
def relativeTo (p root : AbsPath) : Option (List String) :=
  if p.anchor == root.anchor && listIsPre root.segs p.segs then
    some (p.segs.drop root.segs.length)
  else
    none

/-- A raw (not yet resolved) path as parsed from a string: absolute with an
anchor, or relative to the working directory. -/
inductive RawPath where
  | abs (anchor : String) (segs : List String)
  | rel (segs : List String)
deriving DecidableEq

/-- Split a path string into pathlib components (empty and single-dot
components are dropped, as pathlib does). -/
def parseSegs (s : String) : List String :=
  (splitSlash s).filter fun t => t ≠ "" && t ≠ "."

/-- Parse a path string as pathlib Path does: a leading slash makes it
absolute. -/
def parseRaw (s : String) : RawPath :=
  if strStartsWith s "/" then .abs "/" (parseSegs s) else .rel (parseSegs s)

/-- Lexical normalization of components performed by resolve(strict=False)
on a symlink-free filesystem: double-dot components pop the previous one. -/
def normSegs (segs : List String) : List String :=
  segs.foldl (fun acc seg => if seg = ".." then acc.dropLast else acc ++ [seg]) []

/-- Python (base_path / path).resolve(strict=False): an absolute raw path
ignores the base, a relative one is joined to it; then normalize. -/
def resolveRaw (base : AbsPath) : RawPath → AbsPath
  | .abs a segs => ⟨a, normSegs segs⟩
  | .rel segs => ⟨base.anchor, normSegs (base.segs ++ segs)⟩

/-- The fixed-filesystem capabilities PathResolver consumes:
Path(s).exists() for a raw input string, and glob.glob expansion (returned
already parsed into raw paths). -/
structure FS where
  pathExists : String → Bool
  glob : String → List RawPath

/-- PathResolver._is_glob: the string contains one of the glob
metacharacters. -/
def isGlobStr (s : String) : Bool :=
  s.toList.any fun c => c == '*' || c == '?' || c == '['

/-- PathResolver._resolve_single_path (cache elided): validate existence,
then resolve against the base path; a missing literal path calls
error_and_exit, modelled as Except.error. -/
def resolveSingleE (fs : FS) (base : AbsPath) (s : String) : Except String AbsPath :=
  if fs.pathExists s then
    .ok (resolveRaw base (parseRaw s))
  else
    .error ("Given value for path does not exist: " ++ s)

/-- The warning text logged for a glob pattern with no matches. -/
def globWarnMsg (pat : String) : String :=
  "No matches found for glob pattern " ++ pat

/-- PathResolver._resolve_glob (cache elided): expand the pattern; an empty
expansion logs a warning (second component) and contributes no paths,
otherwise each match is resolved against the working directory. -/
def resolveGlobE (fs : FS) (base : AbsPath) (pat : String) : List AbsPath × List String :=
  match fs.glob pat with
  | [] => ([], [globWarnMsg pat])
  | ps => (ps.map (resolveRaw base), [])

/-- The accumulation loop of PathResolver.resolve_paths: each input string
contributes its resolutions in order (glob expansion or a single literal);
the first failing literal aborts.  Warnings are collected alongside. -/
def resolveArgsE (fs : FS) (base : AbsPath) : List String → Except String (List AbsPath × List String)
  | [] => .ok ([], [])
  | s :: rest => do
    let head ←
      if isGlobStr s then
        pure (resolveGlobE fs base s)
      else do
        let p ← resolveSingleE fs base s
        pure ([p], ([] : List String))
    let tail ← resolveArgsE fs base rest
    pure (head.1 ++ tail.1, head.2 ++ tail.2)

/-- All anchors in the list agree with the first (os.path.commonpath raises
ValueError exactly when the inputs mix drives or absolute/relative forms). -/
def anchorsAgree : List AbsPath → Bool
  | [] => true
  | p :: ps => ps.all fun q => q.anchor == p.anchor

/-- Component-wise longest common prefix of two component lists. -/
def lcp2 : List String → List String → List String
  | a :: as, b :: bs => if a = b then a :: lcp2 as bs else []
  | _, _ => []

/-- os.path.commonpath: errors on an empty sequence or mixed anchors,
otherwise the shared anchor with the longest common component prefix. -/
def commonPathE : List AbsPath → Except String AbsPath
  | [] => .error "ValueError: commonpath() arg is an empty sequence"
  | p :: ps =>
    if anchorsAgree (p :: ps) then
      .ok ⟨p.anchor, ps.foldl (fun acc q => lcp2 acc q.segs) p.segs⟩
    else
      .error "ValueError: paths do not have the same anchor"

/-- PathResolver.resolve_paths: empty input returns the working directory;
otherwise resolve every input in order and, when at least one path was
produced, append the common ancestor (whose failure exits the process). -/
def resolvePathsE (fs : FS) (base : AbsPath) (strs : List String) :
    Except String (List AbsPath × List String) :=
  if strs.isEmpty then .ok ([base], [])
  else do
    let cw ← resolveArgsE fs base strs
    if cw.1.isEmpty then
      pure cw
    else do
      let c ← commonPathE cw.1
      pure (cw.1 ++ [c], cw.2)

/-- PathResolver.is_under: the path equals or is a descendant of one of the
candidate parents. -/
def isUnder (p : AbsPath) (parents : List AbsPath) : Bool :=
  parents.any fun par => decide (p = par) || (relativeTo p par).isSome

/-- PathResolver.is_hidden: the final path component starts with a dot. -/
def isHidden (p : AbsPath) : Bool :=
  strStartsWith p.name "."

/-- Join relative components in POSIX form as Path.as_posix does; the empty
relative path renders as a single dot. -/
def joinSlash : List String → String
  | [] => "."
  | s :: rest => rest.foldl (fun acc t => acc ++ "/" ++ t) s

/-- Python s.lstrip applied with a slash argument: drop every leading
slash character. -/
def strLstripSlash (s : String) : String :=
  String.mk (s.toList.dropWhile fun c => c == '/')

/-- GitIgnore._parse_gitignore_file: strip each line, skip blank lines and
comments, record a negation marker, strip leading slashes from the body,
and re-attach the marker. -/
def parseGitignoreLines (lines : List String) : List String :=
  lines.flatMap fun line =>
    let l := strTrim line
    if l = "" || strStartsWith l "#" then []
    else
      let neg := strStartsWith l "!"
      let pat := if neg then strDrop l 1 else l
      let pat := strLstripSlash pat
      [if neg then "!" ++ pat else pat]

/-- Modelled from the spec: the external pathspec gitwildmatch capability is
out of scope (spec section 1) and the pathspec package is not part of this
repository; only the fragment the claims exercise is modelled.  A pattern
containing a slash matches the relative path itself or any extension of it;
a slash-free pattern matches when it equals one of the path components. -/
def gitwildMatchOne (pat : String) (rel : String) : Bool :=
  if pat.toList.contains '/' then
    rel == pat || strStartsWith rel (pat ++ "/")
  else
    (splitSlash rel).contains pat

/-- Modelled from the spec: pathspec.PathSpec.from_lines match_file - the
path matches when the last rule in declaration order that matches it is a
non-negated rule (spec section 4.2, matching rules). -/
def pathspecMatchFile (pats : List String) (rel : String) : Bool :=
  (pats.foldl
    (fun acc q =>
      let neg := strStartsWith q "!"
      let body := if neg then strDrop q 1 else q
      if gitwildMatchOne body rel then some (!neg) else acc)
    none).getD false

/-- A loaded GitIgnore object: the enabled flag (config.gitignore) and the
compiled scopes, each a root directory paired with the compiled pattern
matcher (spec.match_file). -/
structure GitIgnoreObj where
  enabled : Bool
  specs : List (AbsPath × (String → Bool))

/-- GitIgnore.excluded: disabled matchers exclude nothing; otherwise scan
the scopes, skipping any whose root the (already canonical) path is not
under; a scope excludes the path when its matcher accepts the relative
path, or - for a directory - the relative path with a trailing slash. -/
def GitIgnoreObj.excluded (isDirFn : AbsPath → Bool) (g : GitIgnoreObj) (p : AbsPath) : Bool :=
  if !g.enabled then false
  else
    g.specs.any fun rs =>
      match relativeTo p rs.1 with
      | none => false
      | some segs =>
        let rel := joinSlash segs
        rs.2 rel || (isDirFn p && rs.2 (rel ++ "/"))

/-- Parent directory of a canonical path (pathlib Path.parent). -/
def parentPath (p : AbsPath) : AbsPath :=
  ⟨p.anchor, p.segs.dropLast⟩

/-- GitIgnore._load_spec_from_gitignore: the root is the directory holding
the .gitignore file; a spec is compiled only when the file yields at least
one pattern. -/
def loadSingleGitignore (enabled : Bool) (giPath : AbsPath) (lines : List String) : GitIgnoreObj :=
  let pats := parseGitignoreLines lines
  ⟨enabled, if pats.isEmpty then [] else [(parentPath giPath, pathspecMatchFile pats)]⟩

/-- GitIgnoreMatcher._is_path_in_scope: relative_to succeeds, i.e. the
gitignore root is an ancestor of (or equal to) the path. -/
def isInScope (p root : AbsPath) : Bool :=
  (relativeTo p root).isSome

/-- The cache-free denotation of GitIgnoreMatcher.excluded: some registered
gitignore whose root scope covers the path reports it excluded. -/
def matcherPureExcluded (isDirFn : AbsPath → Bool)
    (gis : List (AbsPath × GitIgnoreObj)) (p : AbsPath) : Bool :=
  gis.any fun rg => isInScope p rg.1 && rg.2.excluded isDirFn p

/-- GitIgnoreMatcher state: registered (root, gitignore) pairs, the
exclusion cache, and its size limit (10000 in the source). -/
structure MatcherState where
  gitignores : List (AbsPath × GitIgnoreObj)
  cache : List (AbsPath × Bool)
  maxCacheSize : Nat

/-- A freshly constructed GitIgnoreMatcher. -/
def initMatcher (maxSize : Nat) : MatcherState :=
  ⟨[], [], maxSize⟩

/-- GitIgnoreMatcher.add_gitignore: append the scope and clear the cache. -/
def MatcherState.addGitignore (s : MatcherState) (g : GitIgnoreObj) (root : AbsPath) : MatcherState :=
  { s with gitignores := s.gitignores ++ [(root, g)], cache := [] }

/-- Cache lookup by path key (str of a canonical path is injective, so the
path itself serves as the key); dict lookup as first-match scan. -/
def cacheLookup : List (AbsPath × Bool) → AbsPath → Option Bool
  | [], _ => none
  | kv :: rest, p => if kv.1 = p then some kv.2 else cacheLookup rest p

/-- GitIgnoreMatcher.excluded: serve a cached verdict when present;
otherwise compute over the applicable scopes and cache the result, clearing
the whole cache first when the size limit has been reached. -/
def MatcherState.excluded (isDirFn : AbsPath → Bool) (s : MatcherState) (p : AbsPath) :
    Bool × MatcherState :=
  match cacheLookup s.cache p with
  | some v => (v, s)
  | none =>
    let result := matcherPureExcluded isDirFn s.gitignores p
    let newCache :=
      if s.cache.length < s.maxCacheSize then (p, result) :: s.cache
      else [(p, result)]
    (result, { s with cache := newCache })

/-- An observable operation on a GitIgnoreMatcher. -/
inductive MOp where
  | add (root : AbsPath) (g : GitIgnoreObj)
  | query (p : AbsPath)

/-- Apply one operation to the matcher state. -/
def applyOp (isDirFn : AbsPath → Bool) (s : MatcherState) : MOp → MatcherState
  | .add root g => s.addGitignore g root
  | .query p => (s.excluded isDirFn p).2

/-- Apply a sequence of operations to the matcher state. -/
def applyOps (isDirFn : AbsPath → Bool) (s : MatcherState) (ops : List MOp) : MatcherState :=
  ops.foldl (applyOp isDirFn) s

/-- The directory-structure capabilities GitIgnore recursive discovery
consumes: iterdir listing (an unreadable directory lists as empty, matching
the caught PermissionError and OSError), directory and symlink tests, and
the parsed line content of a .gitignore file in a directory (none when
d/.gitignore is not a file). -/
structure DirFS where
  children : AbsPath → List AbsPath
  isDirB : AbsPath → Bool
  isSymlink : AbsPath → Bool
  gitignoreFile : AbsPath → Option (List String)

/-- GitIgnore._within_depth: unlimited when the configured depth is None;
otherwise the number of components of the path relative to the root must
not exceed the depth, with a failing relative_to counting as out of
depth. -/
def withinDepth (giDepth : Option Int) (root d : AbsPath) : Bool :=
  match giDepth with
  | none => true
  | some n =>
    match relativeTo d root with
    | some segs => decide ((segs.length : Int) ≤ n)
    | none => false

/-- The children of a directory that the walk may push: directories that
are not symlinks. -/
def childDirs (dfs : DirFS) (d : AbsPath) : List AbsPath :=
  (dfs.children d).filter fun c => dfs.isDirB c && !dfs.isSymlink c

/-- The loop of GitIgnore._walk_dirs, fuel-bounded for termination: pop the
top of the stack, skip it when already visited, otherwise yield it and -
only when it is within the configured depth - push its non-symlink child
directories (in reverse, matching Python list append plus pop-from-end
order). -/
def walkGo (dfs : DirFS) (giDepth : Option Int) (root : AbsPath) :
    Nat → List AbsPath → List AbsPath → List AbsPath
  | 0, _, _ => []
  | _ + 1, [], _ => []
  | fuel + 1, d :: stack, visited =>
    if d ∈ visited then walkGo dfs giDepth root fuel stack visited
    else if withinDepth giDepth root d then
      d :: walkGo dfs giDepth root fuel ((childDirs dfs d).reverse ++ stack) (d :: visited)
    else
      d :: walkGo dfs giDepth root fuel stack (d :: visited)

/-- GitIgnore._walk_dirs: stack-based traversal from the root with a
visited set, fuel-bounded. -/
def walkDirs (dfs : DirFS) (giDepth : Option Int) (fuel : Nat) (root : AbsPath) : List AbsPath :=
  walkGo dfs giDepth root fuel [root] []

/-- The per-pattern rewriting loop of GitIgnore._collect_patterns: peel a
negation marker, strip leading slashes from the body, attach the directory
relative-path marker in front of the body, and re-attach the marker. -/
def rewritePat (pfx : String) (pat : String) : String :=
  let neg := strStartsWith pat "!"
  let basePat := if neg then strDrop pat 1 else pat
  let prefixedPat := pfx ++ strLstripSlash basePat
  if neg then "!" ++ prefixedPat else prefixedPat

/-- The directory marker prepended to patterns of a nested .gitignore: the
empty string for the root itself, otherwise the relative directory in POSIX
form followed by a slash. -/
def dirMarker (segs : List String) : String :=
  let relDir := joinSlash segs
  if relDir = "." then "" else relDir ++ "/"

/-- GitIgnore._collect_patterns: walk the directories under the root; for
each visited directory holding a .gitignore file, compute its relative
directory (a directory outside the root would raise ValueError, modelled as
an error) and append its rewritten patterns. -/
def collectPatternsE (dfs : DirFS) (giDepth : Option Int) (fuel : Nat) (root : AbsPath) :
    Except String (List String) :=
  (walkDirs dfs giDepth fuel root).foldlM
    (fun acc d =>
      match dfs.gitignoreFile d with
      | none => pure acc
      | some lines =>
        match relativeTo d root with
        | none => .error "ValueError: path is not in the subpath of the root"
        | some segs =>
          pure (acc ++ (parseGitignoreLines lines).map (rewritePat (dirMarker segs))))
    []

/-- Modelled from the spec: the configuration object (gitree/objects/config.py
is not among the sources); section 6 of the spec lists the fields the
filters read, with the gitignore scan depth an int or unbounded.  Following
GitIgnore._within_depth, which tests the configured depth against None, the
unbounded depth value is encoded as none; the exclude-filter depth is given
the same encoding. -/
structure FilterConfig where
  no_files : Bool
  hidden_items : Bool
  file_extensions : List String
  exclude_depth : Option Int
  gitignore_depth : Option Int

/-- The per-entry normalization in FilterApplier.init: lowercase, then
strip every leading dot. -/
def normExt (e : String) : String :=
  String.mk ((strToLower e).toList.dropWhile fun c => c == '.')

/-- FilterApplier.init: the extension set stays None for an empty (falsy)
configured list, otherwise every entry is normalized.  Python builds a set;
a list with the same members is membership-equivalent. -/
def fileExtensionsSet (cfg : FilterConfig) : Option (List String) :=
  if cfg.file_extensions.isEmpty then none else some (cfg.file_extensions.map normExt)

/-- Python rfind: the largest index holding the character, or minus one. -/
def pyRFind (s : String) (c : Char) : Int :=
  match (s.toList.enum.filter fun ic => ic.2 == c).getLast? with
  | some ic => (ic.1 : Int)
  | none => -1

/-- Python slice s[i:] on code points. -/
def pySliceFrom (s : String) (i : Nat) : String :=
  String.mk (s.toList.drop i)

/-- The Python comparison d <= bound where bound is an int or None: the
comparison with None raises TypeError, modelled as an error. -/
def pyLeOpt (a : Int) : Option Int → Except String Bool
  | some b => .ok (decide (a ≤ b))
  | none => .error "TypeError: le not supported between instances of int and NoneType"

/-- Filter 1.5 of FilterApplier.should_include_item: with a configured
extension set and a file item, find the last dot of the name; the item is
rejected when there is no dot after position zero, or when the lowercased
substring after the last dot is not in the set.  Directories and the
None set never reject. -/
def extFilterRejects (extSet : Option (List String)) (isDir : Bool) (nm : String) : Bool :=
  match extSet with
  | none => false
  | some exts =>
    if isDir then false
    else
      let dotIdx := pyRFind nm '.'
      if dotIdx > 0 then
        let fileExt := strToLower (pySliceFrom nm (dotIdx + 1).toNat)
        !(exts.contains fileExt)
      else
        true

/-- FilterApplier.should_include_item: the layered filter chain.  Filters in
source order: no-files suppression, extension allow-list (extFilterRejects),
explicit-membership for items not under the given paths (skipped when
extension filtering is active), hidden-item suppression, exclude-path
suppression within the exclude depth, gitignore suppression within the
gitignore depth, and include-path confinement (skipped when extension
filtering is active).  The two depth guards compare a Python int with the
configured value, so an unbounded (None) depth raises, modelled by
Except. -/
def shouldIncludeItem (cfg : FilterConfig) (itemPath : AbsPath) (currDepth : Int)
    (isDir : Bool) (giExcluded : AbsPath → Bool)
    (excludePaths resolvedIncludePaths : List AbsPath)
    (dirUnderGivenPaths : Bool) : Except String Bool :=
  let extSet := fileExtensionsSet cfg
  if !isDir && cfg.no_files then .ok false
  else if extFilterRejects extSet isDir itemPath.name then .ok false
  else if !dirUnderGivenPaths && extSet.isNone
      && ((!isDir && !decide (itemPath ∈ resolvedIncludePaths))
          || (isDir && !(resolvedIncludePaths.any fun t => isUnder t [itemPath]))) then
    .ok false
  else if !cfg.hidden_items && isHidden itemPath
      && !decide (itemPath ∈ resolvedIncludePaths) then
    .ok false
  else
    match pyLeOpt currDepth cfg.exclude_depth with
    | .error e => .error e
    | .ok le1 =>
      if le1 && isUnder itemPath excludePaths then .ok false
      else
        match pyLeOpt currDepth cfg.gitignore_depth with
        | .error e => .error e
        | .ok le2 =>
          if le2 && giExcluded itemPath then .ok false
          else if extSet.isNone && !isUnder itemPath resolvedIncludePaths then .ok false
          else .ok true

/-- ItemsSelectionService.run up to the traversal call: resolve the include
arguments (config.paths plus config.include), print the root - indexing the
last element, which raises IndexError on an empty resolution - resolve the
exclude arguments, and run the (dead, since the indexing already raised)
emptiness check.  The traversal itself recovers all filesystem errors
locally per spec section 7, so the returned value is its argument tuple:
root, includes, excludes without their appended ancestor, warnings. -/
def runSelectionE (fs : FS) (base : AbsPath)
    (cfgPaths cfgInclude cfgExclude : List String) :
    Except String (AbsPath × List AbsPath × List AbsPath × List String) := do
  let inc ← resolvePathsE fs base (cfgPaths ++ cfgInclude)
  let root ←
    match inc.1.getLast? with
    | some r => pure r
    | none => .error "IndexError: list index out of range"
  let exc ← resolvePathsE fs base cfgExclude
  if inc.1.isEmpty then .error "Error: no included paths were found matching given args"
  else pure (root, inc.1, exc.1.dropLast, inc.2 ++ exc.2)

/-- c is an ancestor of p or equal to it: same anchor and the components of
c form a prefix of those of p. -/
def isAncestorOrSelf (c p : AbsPath) : Bool :=
  c.anchor == p.anchor && listIsPre c.segs p.segs

/-- Some input string is a literal (non-glob) path that does not exist. -/
def literalMissing (fs : FS) (strs : List String) : Bool :=
  strs.any fun s => !isGlobStr s && !fs.pathExists s

/-- The inputs resolve to a non-empty path list whose anchors disagree, so
no common ancestor is computable. -/
def noCommonAnchor (fs : FS) (base : AbsPath) (strs : List String) : Prop :=
  ∃ cp w, resolveArgsE fs base strs = .ok (cp, w) ∧ cp ≠ [] ∧ anchorsAgree cp = false

/-- A non-empty include argument list resolves to zero paths. -/
def zeroResolvedIncludes (fs : FS) (base : AbsPath) (incStrs : List String) : Prop :=
  incStrs ≠ [] ∧ ∃ w, resolveArgsE fs base incStrs = .ok ([], w)

/-- The fatal configuration conditions of the selection pipeline: a missing
literal path argument, no common ancestor across the resolved paths, or
zero resolved include paths. -/
def fatalCondition (fs : FS) (base : AbsPath) (incStrs excStrs : List String) : Prop :=
  literalMissing fs incStrs = true
  ∨ noCommonAnchor fs base incStrs
  ∨ zeroResolvedIncludes fs base incStrs
  ∨ literalMissing fs excStrs = true
  ∨ noCommonAnchor fs base excStrs

/-- Cache consistency: every cached verdict agrees with the cache-free
denotation over the currently registered gitignores. -/
def CacheOk (isDirFn : AbsPath → Bool) (s : MatcherState) : Prop :=
  ∀ p v, cacheLookup s.cache p = some v → v = matcherPureExcluded isDirFn s.gitignores p

/-- Well-formed directory listing: every child extends its parent by
exactly one component and keeps the anchor. -/
def wfDirFS (dfs : DirFS) : Prop :=
  ∀ d c, c ∈ dfs.children d → c.anchor = d.anchor ∧ ∃ nm, c.segs = d.segs ++ [nm]

/-- Example filesystem: literal paths a and b exist, no glob matches
anything. -/
def exFS : FS :=
  ⟨fun s => s == "a" || s == "b", fun _ => []⟩

/-- Example working directory. -/
def exBase : AbsPath := ⟨"/", ["w"]⟩

/-- Resolution of the literal a under the example working directory. -/
def exA : AbsPath := ⟨"/", ["w", "a"]⟩

/-- Resolution of the literal b under the example working directory. -/
def exB : AbsPath := ⟨"/", ["w", "b"]⟩

/-- Example scope root holding the .gitignore of the scope-pruning
scenario. -/
def exSubRoot : AbsPath := ⟨"/", ["root", "sub"]⟩

/-- The gitignore loaded from /root/sub/.gitignore with the single pattern
foo. -/
def exGI : GitIgnoreObj :=
  loadSingleGitignore true ⟨"/", ["root", "sub", ".gitignore"]⟩ ["foo"]

/-- Example directory filesystem for the walk: root r with single child
directory r/c, no symlinks, and a .gitignore with pattern x inside c. -/
def exDFS : DirFS :=
  ⟨fun d => if d = ⟨"/", ["r"]⟩ then [⟨"/", ["r", "c"]⟩] else [],
   fun _ => true,
   fun _ => false,
   fun d => if d = ⟨"/", ["r", "c"]⟩ then some ["x"] else none⟩

/-- The walk root of the example directory filesystem. -/
def exR : AbsPath := ⟨"/", ["r"]⟩

/-- The nested directory of the example directory filesystem. -/
def exC : AbsPath := ⟨"/", ["r", "c"]⟩

/-- A configuration with the gitignore depth set to its unbounded value and
every other filter permissive. -/
def exCfgUnbounded : FilterConfig :=
  ⟨false, true, [], some 100, none⟩

/-- A configuration with the exclude-filter depth set to its unbounded
value and every other filter permissive. -/
def exCfgUnboundedExclude : FilterConfig :=
  ⟨false, true, [], none, some 100⟩

/-- A permissive configuration with a py extension allow-list and bounded
depths. -/
def exCfgPy : FilterConfig :=
  ⟨false, true, ["py"], some 100, some 100⟩

/-- An example file path used when exercising the filter chain. -/
def exPyFile : AbsPath := ⟨"/", ["w", "m.py"]⟩

theorem listIsPre_refl (l : List String) : listIsPre l l = true := by
  induction l with
  | nil => rfl
  | cons a as ih => simp [listIsPre, ih]

theorem listIsPre_trans {a b c : List String}
    (h1 : listIsPre a b = true) (h2 : listIsPre b c = true) : listIsPre a c = true := by
  induction a generalizing b c with
  | nil => rfl
  | cons x xs ih =>
    cases b with
    | nil => simp [listIsPre] at h1
    | cons y ys =>
      cases c with
      | nil => simp [listIsPre] at h2
      | cons z zs =>
        simp only [listIsPre, Bool.and_eq_true, beq_iff_eq] at h1 h2 ⊢
        exact ⟨h1.1.trans h2.1, ih h1.2 h2.2⟩

theorem lcp2_self (l : List String) : lcp2 l l = l := by
  induction l with
  | nil => rfl
  | cons a as ih => simp [lcp2, ih]

theorem listIsPre_lcp2_left (a b : List String) : listIsPre (lcp2 a b) a = true := by
  induction a generalizing b with
  | nil => cases b <;> rfl
  | cons x xs ih =>
    cases b with
    | nil => rfl
    | cons y ys =>
      by_cases hxy : x = y
      · simp [lcp2, hxy, listIsPre, ih]
      · simp [lcp2, hxy, listIsPre]

theorem listIsPre_lcp2_right (a b : List String) : listIsPre (lcp2 a b) b = true := by
  induction a generalizing b with
  | nil => cases b <;> rfl
  | cons x xs ih =>
    cases b with
    | nil => rfl
    | cons y ys =>
      by_cases hxy : x = y
      · simp [lcp2, hxy, listIsPre, ih]
      · simp [lcp2, hxy, listIsPre]

theorem foldl_lcp2_pre (ps : List AbsPath) (acc : List String) :
    listIsPre (ps.foldl (fun acc q => lcp2 acc q.segs) acc) acc = true ∧
    ∀ q ∈ ps, listIsPre (ps.foldl (fun acc q => lcp2 acc q.segs) acc) q.segs = true := by
  induction ps generalizing acc with
  | nil =>
    refine ⟨listIsPre_refl acc, ?_⟩
    intro q hq
    cases hq
  | cons p ps ih =>
    simp only [List.foldl_cons]
    obtain ⟨h1, h2⟩ := ih (lcp2 acc p.segs)
    refine ⟨listIsPre_trans h1 (listIsPre_lcp2_left acc p.segs), ?_⟩
    intro q hq
    rcases List.mem_cons.mp hq with h | h
    · subst h
      exact listIsPre_trans h1 (listIsPre_lcp2_right acc q.segs)
    · exact h2 q h

theorem isAncestorOrSelf_refl (p : AbsPath) : isAncestorOrSelf p p = true := by
  simp [isAncestorOrSelf, listIsPre_refl]

theorem commonPathE_ancestor {l : List AbsPath} {c : AbsPath}
    (h : commonPathE l = .ok c) : ∀ p ∈ l, isAncestorOrSelf c p = true := by
  cases l with
  | nil => simp [commonPathE] at h
  | cons p ps =>
    simp only [commonPathE] at h
    by_cases hag : anchorsAgree (p :: ps) = true
    · rw [if_pos hag] at h
      injection h with h
      subst h
      intro q hq
      simp only [isAncestorOrSelf, Bool.and_eq_true, beq_iff_eq]
      rcases List.mem_cons.mp hq with hqe | hqm
      · subst hqe
        exact ⟨rfl, (foldl_lcp2_pre ps q.segs).1⟩
      · constructor
        · simp only [anchorsAgree, List.all_eq_true] at hag
          exact (beq_iff_eq.mp (hag q hqm)).symm
        · exact (foldl_lcp2_pre ps p.segs).2 q hqm
    · rw [if_neg hag] at h
      cases h

theorem resolvePathsE_eq (fs : FS) (base : AbsPath) (strs : List String) :
    resolvePathsE fs base strs =
      if strs.isEmpty then .ok ([base], [])
      else
        match resolveArgsE fs base strs with
        | .error e => .error e
        | .ok cw =>
          if cw.1.isEmpty then .ok cw
          else
            match commonPathE cw.1 with
            | .error e => .error e
            | .ok c => .ok (cw.1 ++ [c], cw.2) := by
  unfold resolvePathsE
  by_cases h : strs.isEmpty
  · simp [h]
  · simp only [h, Bool.false_eq_true, if_false]
    cases hargs : resolveArgsE fs base strs with
    | error e => rfl
    | ok cw =>
      show (if cw.1.isEmpty then pure cw else _) = _
      by_cases hcw : cw.1.isEmpty
      · simp [hcw]
        rfl
      · simp only [hcw, Bool.false_eq_true, if_false]
        cases hc : commonPathE cw.1 with
        | error e => rfl
        | ok c => rfl

theorem resolvePathsE_ok_structure {fs : FS} {base : AbsPath} {strs : List String}
    {l : List AbsPath} {w : List String}
    (h : resolvePathsE fs base strs = .ok (l, w)) (hne : strs ≠ []) :
    ∃ cp, resolveArgsE fs base strs = .ok (cp, w) ∧
      ((cp = [] ∧ l = []) ∨ ∃ c, commonPathE cp = .ok c ∧ l = cp ++ [c]) := by
  rw [resolvePathsE_eq] at h
  have hie : strs.isEmpty = false := by
    cases strs with
    | nil => exact absurd rfl hne
    | cons a as => rfl
  rw [hie] at h
  simp only [Bool.false_eq_true, if_false] at h
  cases hargs : resolveArgsE fs base strs with
  | error e => rw [hargs] at h; cases h
  | ok cw =>
    obtain ⟨cl, cww⟩ := cw
    rw [hargs] at h
    dsimp only at h
    by_cases hcw : cl.isEmpty
    · rw [if_pos hcw] at h
      injection h with h
      injection h with h1 h2
      subst h1
      subst h2
      exact ⟨cl, rfl, Or.inl ⟨List.isEmpty_iff.mp hcw, List.isEmpty_iff.mp hcw⟩⟩
    · rw [if_neg hcw] at h
      cases hc : commonPathE cl with
      | error e => rw [hc] at h; cases h
      | ok c =>
        rw [hc] at h
        dsimp only at h
        injection h with h
        injection h with h1 h2
        subst h1
        subst h2
        exact ⟨cl, rfl, Or.inr ⟨c, hc, rfl⟩⟩

/-- C1: the claim asserts resolve_paths de-duplicates by canonical string;
the code performs no de-duplication, so the same canonical path appears
twice when two input strings resolve to it: with the literal a given twice,
the list before the appended common ancestor is a duplicate pair. -/
theorem c1_counterexample :
    resolvePathsE exFS exBase ["a", "a"] = .ok ([exA, exA, exA], []) ∧
    ¬ ([exA, exA, exA].dropLast).Nodup := by
  constructor
  · rfl
  · decide

/-- C1 (amended): resolve_paths performs no de-duplication: each input
contributes its resolved paths in input order, so the result before the
appended common ancestor is the plain concatenation of the per-input
resolutions; in particular the same existing literal given twice yields
that path twice. -/
theorem c1_no_dedup_order_preserved :
    (∀ (fs : FS) (base : AbsPath) (strs : List String) (l : List AbsPath) (w : List String),
      resolvePathsE fs base strs = .ok (l, w) → strs ≠ [] →
      ∃ cp, resolveArgsE fs base strs = .ok (cp, w) ∧
        ((cp = [] ∧ l = []) ∨ ∃ c, commonPathE cp = .ok c ∧ l = cp ++ [c]))
    ∧ (∀ (fs : FS) (base : AbsPath) (s : String),
      isGlobStr s = false → fs.pathExists s = true →
      resolvePathsE fs base [s, s] =
        .ok ([resolveRaw base (parseRaw s), resolveRaw base (parseRaw s),
              resolveRaw base (parseRaw s)], [])) := by
  constructor
  · intro fs base strs l w h hne
    exact resolvePathsE_ok_structure h hne
  · intro fs base s hg hx
    have hargs : resolveArgsE fs base [s, s] =
        .ok ([resolveRaw base (parseRaw s), resolveRaw base (parseRaw s)], []) := by
      simp [resolveArgsE, resolveSingleE, hg, hx, Bind.bind, Except.bind, pure,
        Except.pure]
    rw [resolvePathsE_eq, hargs]
    simp [commonPathE, anchorsAgree, lcp2_self]

/-- C1 witness: the amended no-dedup statement evaluated at the example
filesystem with the literal a passed twice. -/
theorem c1_witness :
    isGlobStr "a" = false ∧ exFS.pathExists "a" = true ∧
    resolvePathsE exFS exBase ["a", "a"] =
      .ok ([resolveRaw exBase (parseRaw "a"), resolveRaw exBase (parseRaw "a"),
            resolveRaw exBase (parseRaw "a")], []) :=
  ⟨by decide, by decide, c1_no_dedup_order_preserved.2 exFS exBase "a" (by decide) (by decide)⟩

/-- C8: for a non-empty input list resolving to at least one path, the
result of resolve_paths is the resolved list with exactly one element
appended, the common ancestor of all resolved paths, and that last element
is an ancestor of (or equal to) every element of the result; the empty
input list yields the working directory as a single-element result. -/
theorem c8_common_ancestor_appended :
    (∀ (fs : FS) (base : AbsPath) (strs : List String) (l : List AbsPath) (w : List String),
      resolvePathsE fs base strs = .ok (l, w) → strs ≠ [] → l ≠ [] →
      ∃ cp c, resolveArgsE fs base strs = .ok (cp, w) ∧ l = cp ++ [c] ∧
        commonPathE cp = .ok c ∧ ∀ p ∈ l, isAncestorOrSelf c p = true)
    ∧ ∀ (fs : FS) (base : AbsPath), resolvePathsE fs base [] = .ok ([base], []) := by
  constructor
  · intro fs base strs l w h hne hlne
    obtain ⟨cp, hargs, hcase⟩ := resolvePathsE_ok_structure h hne
    rcases hcase with ⟨-, hl⟩ | ⟨c, hc, hl⟩
    · exact absurd hl hlne
    · refine ⟨cp, c, hargs, hl, hc, ?_⟩
      intro p hp
      rw [hl] at hp
      rcases List.mem_append.mp hp with hp | hp
      · exact commonPathE_ancestor hc p hp
      · rcases List.mem_singleton.mp hp with rfl
        exact isAncestorOrSelf_refl p
  · intro fs base
    rfl

/-- C8 witness: the two existing literals a and b resolve under /w, and the
appended last element /w is their common ancestor. -/
theorem c8_witness :
    resolvePathsE exFS exBase ["a", "b"] = .ok ([exA, exB, exBase], []) ∧
    ∃ cp c, resolveArgsE exFS exBase ["a", "b"] = .ok (cp, []) ∧
      [exA, exB, exBase] = cp ++ [c] ∧ commonPathE cp = .ok c ∧
      ∀ p ∈ [exA, exB, exBase], isAncestorOrSelf c p = true :=
  ⟨rfl,
   c8_common_ancestor_appended.1 exFS exBase ["a", "b"] [exA, exB, exBase] []
     rfl (by decide) (by decide)⟩

/-- C2: scope confinement of gitignores.  Dropping a scope whose root is
not an ancestor of the path changes neither GitIgnore.excluded nor the
matcher verdict; the matcher excludes a path exactly when some applicable
scope (root an ancestor of, or equal to, the path) reports it excluded; and
the .gitignore at /root/sub with pattern foo excludes /root/sub/foo but not
/root/foo, both for the pure denotation and for the stateful matcher. -/
theorem c2_scope_pruning :
    (∀ (isDirFn : AbsPath → Bool) (e : Bool) (root : AbsPath) (m : String → Bool)
        (rest : List (AbsPath × (String → Bool))) (p : AbsPath),
      relativeTo p root = none →
      GitIgnoreObj.excluded isDirFn ⟨e, (root, m) :: rest⟩ p =
        GitIgnoreObj.excluded isDirFn ⟨e, rest⟩ p)
    ∧ (∀ (isDirFn : AbsPath → Bool) (gis : List (AbsPath × GitIgnoreObj))
        (root : AbsPath) (g : GitIgnoreObj) (p : AbsPath),
      isInScope p root = false →
      matcherPureExcluded isDirFn ((root, g) :: gis) p = matcherPureExcluded isDirFn gis p)
    ∧ (∀ (isDirFn : AbsPath → Bool) (gis : List (AbsPath × GitIgnoreObj)) (p : AbsPath),
      matcherPureExcluded isDirFn gis p = true ↔
        ∃ rg, rg ∈ gis ∧ isInScope p rg.1 = true ∧ rg.2.excluded isDirFn p = true)
    ∧ (matcherPureExcluded (fun _ => false) [(exSubRoot, exGI)] ⟨"/", ["root", "sub", "foo"]⟩ = true
       ∧ matcherPureExcluded (fun _ => false) [(exSubRoot, exGI)] ⟨"/", ["root", "foo"]⟩ = false
       ∧ (((initMatcher 10000).addGitignore exGI exSubRoot).excluded (fun _ => false)
            ⟨"/", ["root", "sub", "foo"]⟩).1 = true
       ∧ (((initMatcher 10000).addGitignore exGI exSubRoot).excluded (fun _ => false)
            ⟨"/", ["root", "foo"]⟩).1 = false) := by
  refine ⟨?_, ?_, ?_, rfl, rfl, rfl, rfl⟩
  · intro isDirFn e root m rest p h
    cases e with
    | false => rfl
    | true => simp [GitIgnoreObj.excluded, h]
  · intro isDirFn gis root g p h
    simp [matcherPureExcluded, h]
  · intro isDirFn gis p
    simp only [matcherPureExcluded, List.any_eq_true, Bool.and_eq_true]

/-- C2 witness: the scope rooted at /root/sub is not an ancestor of
/root/foo, so removing it leaves the matcher verdict unchanged. -/
theorem c2_witness :
    isInScope ⟨"/", ["root", "foo"]⟩ exSubRoot = false ∧
    matcherPureExcluded (fun _ => false) [(exSubRoot, exGI)] ⟨"/", ["root", "foo"]⟩ =
      matcherPureExcluded (fun _ => false) [] ⟨"/", ["root", "foo"]⟩ :=
  ⟨by decide,
   c2_scope_pruning.2.1 (fun _ => false) [] exSubRoot exGI ⟨"/", ["root", "foo"]⟩ (by decide)⟩

theorem cacheOk_init (isDirFn : AbsPath → Bool) (maxSize : Nat) :
    CacheOk isDirFn (initMatcher maxSize) := by
  intro p v h
  cases h

theorem cacheOk_add {isDirFn : AbsPath → Bool} {s : MatcherState}
    (g : GitIgnoreObj) (root : AbsPath) :
    CacheOk isDirFn (s.addGitignore g root) := by
  intro p v h
  cases h

theorem excluded_fst_of_cacheOk {isDirFn : AbsPath → Bool} {s : MatcherState}
    (hok : CacheOk isDirFn s) (p : AbsPath) :
    (s.excluded isDirFn p).1 = matcherPureExcluded isDirFn s.gitignores p := by
  unfold MatcherState.excluded
  cases hl : cacheLookup s.cache p with
  | some v =>
    simpa using hok p v hl
  | none =>
    rfl

theorem excluded_snd_of_cacheOk {isDirFn : AbsPath → Bool} {s : MatcherState}
    (hok : CacheOk isDirFn s) (p : AbsPath) :
    CacheOk isDirFn (s.excluded isDirFn p).2 ∧
      (s.excluded isDirFn p).2.gitignores = s.gitignores := by
  unfold MatcherState.excluded
  cases hl : cacheLookup s.cache p with
  | some v => exact ⟨hok, rfl⟩
  | none =>
    refine ⟨?_, rfl⟩
    intro q v hq
    dsimp only at hq
    by_cases hlen : s.cache.length < s.maxCacheSize
    · rw [if_pos hlen] at hq
      rw [show cacheLookup ((p, matcherPureExcluded isDirFn s.gitignores p) :: s.cache) q =
          if p = q then some (matcherPureExcluded isDirFn s.gitignores p)
          else cacheLookup s.cache q from rfl] at hq
      by_cases hpq : p = q
      · rw [if_pos hpq] at hq
        injection hq with hq
        rw [← hq, ← hpq]
      · rw [if_neg hpq] at hq
        exact hok q v hq
    · rw [if_neg hlen] at hq
      rw [show cacheLookup [(p, matcherPureExcluded isDirFn s.gitignores p)] q =
          if p = q then some (matcherPureExcluded isDirFn s.gitignores p)
          else none from rfl] at hq
      by_cases hpq : p = q
      · rw [if_pos hpq] at hq
        injection hq with hq
        rw [← hq, ← hpq]
      · rw [if_neg hpq] at hq
        cases hq

theorem cacheOk_applyOps (isDirFn : AbsPath → Bool) (ops : List MOp) {s : MatcherState}
    (hok : CacheOk isDirFn s) : CacheOk isDirFn (applyOps isDirFn s ops) := by
  induction ops generalizing s with
  | nil => exact hok
  | cons op ops ih =>
    cases op with
    | add root g => exact ih (cacheOk_add g root)
    | query p => exact ih (excluded_snd_of_cacheOk hok p).1

/-- C3: the memoization of GitIgnoreMatcher is semantically transparent.
After any sequence of add_gitignore and excluded operations from a fresh
matcher (any cache size limit), excluded returns exactly the cache-free
denotation over the currently registered gitignores, and an immediately
repeated call on the resulting state returns the same verdict; since the
statement holds for every operation sequence and every size limit, neither
the cache-clearing performed by add_gitignore nor the clear-on-overflow
eviction ever changes an answer. -/
theorem c3_memoization_transparent (isDirFn : AbsPath → Bool) (maxSize : Nat)
    (ops : List MOp) (p : AbsPath) :
    ((applyOps isDirFn (initMatcher maxSize) ops).excluded isDirFn p).1 =
      matcherPureExcluded isDirFn (applyOps isDirFn (initMatcher maxSize) ops).gitignores p
    ∧ (((applyOps isDirFn (initMatcher maxSize) ops).excluded isDirFn p).2.excluded
        isDirFn p).1 =
      ((applyOps isDirFn (initMatcher maxSize) ops).excluded isDirFn p).1 := by
  have hok : CacheOk isDirFn (applyOps isDirFn (initMatcher maxSize) ops) :=
    cacheOk_applyOps isDirFn ops (cacheOk_init isDirFn maxSize)
  obtain ⟨hok2, hgis⟩ := excluded_snd_of_cacheOk hok p
  refine ⟨excluded_fst_of_cacheOk hok p, ?_⟩
  rw [excluded_fst_of_cacheOk hok2 p, hgis, excluded_fst_of_cacheOk hok p]

theorem shouldInclude_ok_true_ext {cfg : FilterConfig} {itemPath : AbsPath} {currDepth : Int}
    {isDir : Bool} {giEx : AbsPath → Bool} {excl incl : List AbsPath} {dug : Bool}
    (h : shouldIncludeItem cfg itemPath currDepth isDir giEx excl incl dug = .ok true) :
    extFilterRejects (fileExtensionsSet cfg) isDir itemPath.name = false := by
  by_contra hne
  have hef : extFilterRejects (fileExtensionsSet cfg) isDir itemPath.name = true := by
    cases he : extFilterRejects (fileExtensionsSet cfg) isDir itemPath.name
    · exact absurd he hne
    · rfl
  simp only [shouldIncludeItem] at h
  by_cases h1 : (!isDir && cfg.no_files) = true
  · rw [if_pos h1] at h
    simp at h
  · rw [if_neg h1, if_pos hef] at h
    simp at h

/-- C5: with a non-empty configured extension allow-list, a file passes the
chain only if its name has a dot at an index strictly greater than zero and
the lowercased substring after the last dot is in the normalized set; with
allow-list py, the file a.PY passes the extension filter while a and
.hidden are rejected by it; and the extension filter never rejects a
directory. -/
theorem c5_extension_filter :
    (∀ (cfg : FilterConfig) (itemPath : AbsPath) (currDepth : Int)
        (giEx : AbsPath → Bool) (excl incl : List AbsPath) (dug : Bool),
      cfg.file_extensions ≠ [] →
      shouldIncludeItem cfg itemPath currDepth false giEx excl incl dug = .ok true →
      pyRFind itemPath.name '.' > 0 ∧
      (cfg.file_extensions.map normExt).contains
        (strToLower (pySliceFrom itemPath.name (pyRFind itemPath.name '.' + 1).toNat)) = true)
    ∧ (extFilterRejects (fileExtensionsSet exCfgPy) false "a.PY" = false
       ∧ extFilterRejects (fileExtensionsSet exCfgPy) false "a" = true
       ∧ extFilterRejects (fileExtensionsSet exCfgPy) false ".hidden" = true)
    ∧ (∀ (extSet : Option (List String)) (nm : String),
        extFilterRejects extSet true nm = false) := by
  refine ⟨?_, ⟨rfl, rfl, rfl⟩, ?_⟩
  · intro cfg itemPath currDepth giEx excl incl dug hne h
    have hset : fileExtensionsSet cfg = some (cfg.file_extensions.map normExt) := by
      unfold fileExtensionsSet
      rw [if_neg]
      intro hie
      exact hne (List.isEmpty_iff.mp hie)
    have hef := shouldInclude_ok_true_ext h
    rw [hset] at hef
    unfold extFilterRejects at hef
    simp only [Bool.false_eq_true, if_false] at hef
    by_cases hd : pyRFind itemPath.name '.' > 0
    · rw [if_pos hd] at hef
      refine ⟨hd, ?_⟩
      cases hc : (cfg.file_extensions.map normExt).contains
          (strToLower (pySliceFrom itemPath.name (pyRFind itemPath.name '.' + 1).toNat))
      · rw [hc] at hef
        cases hef
      · rfl
    · rw [if_neg hd] at hef
      cases hef
  · intro extSet nm
    cases extSet <;> rfl

/-- C5 witness: the configured py list is non-empty and m.py passes the
whole chain, so the extension condition holds for it. -/
theorem c5_witness :
    exCfgPy.file_extensions ≠ [] ∧
    shouldIncludeItem exCfgPy exPyFile 0 false (fun _ => false) [] [] true = .ok true ∧
    (pyRFind exPyFile.name '.' > 0 ∧
      (exCfgPy.file_extensions.map normExt).contains
        (strToLower (pySliceFrom exPyFile.name (pyRFind exPyFile.name '.' + 1).toNat)) = true) :=
  ⟨by decide, rfl,
   c5_extension_filter.1 exCfgPy exPyFile 0 (fun _ => false) [] [] true (by decide) rfl⟩

/-- C6: the claim asserts the depth guards are well-defined for the
unbounded depth configuration; the code compares a Python int against the
configured value with a plain comparison, which raises TypeError when the
unbounded value (None, the encoding GitIgnore._within_depth itself
handles) is configured, for the gitignore depth guard as well as for the
exclude-filter depth guard. -/
theorem c6_unbounded_depth_type_error :
    shouldIncludeItem exCfgUnbounded exPyFile 0 false (fun _ => false) [] [exPyFile] true =
      .error "TypeError: le not supported between instances of int and NoneType"
    ∧ shouldIncludeItem exCfgUnboundedExclude exPyFile 0 false (fun _ => false) [] [exPyFile]
        true =
      .error "TypeError: le not supported between instances of int and NoneType" :=
  ⟨rfl, rfl⟩

/-- C10: the allow-list is normalized at construction by lowercasing and
stripping all leading dots, so configured lists that normalize equally
(such as py, PY and .py) give identical filter verdicts for every item. -/
theorem c10_extension_normalization :
    (normExt ".py" = "py" ∧ normExt "PY" = "py" ∧ normExt "py" = "py")
    ∧ (∀ (cfg : FilterConfig) (l2 : List String) (itemPath : AbsPath) (currDepth : Int)
        (isDir : Bool) (giEx : AbsPath → Bool) (excl incl : List AbsPath) (dug : Bool),
      cfg.file_extensions.map normExt = l2.map normExt →
      shouldIncludeItem cfg itemPath currDepth isDir giEx excl incl dug =
        shouldIncludeItem { cfg with file_extensions := l2 } itemPath currDepth isDir giEx
          excl incl dug) := by
  refine ⟨⟨rfl, rfl, rfl⟩, ?_⟩
  intro cfg l2 itemPath currDepth isDir giEx excl incl dug h
  have hlen : cfg.file_extensions.length = l2.length := by
    have := congrArg List.length h
    simpa using this
  have hset : fileExtensionsSet cfg = fileExtensionsSet { cfg with file_extensions := l2 } := by
    unfold fileExtensionsSet
    by_cases he : cfg.file_extensions = []
    · have he2 : l2 = [] := by
        rw [he] at hlen
        exact List.length_eq_zero.mp hlen.symm
      simp [he, he2]
    · have he2 : l2 ≠ [] := by
        intro hc
        rw [hc] at hlen
        exact he (List.length_eq_zero.mp hlen)
      rw [if_neg (by simpa [List.isEmpty_iff] using he),
        if_neg (by simpa [List.isEmpty_iff] using he2)]
      simpa using h
  simp only [shouldIncludeItem, hset]

/-- C10 witness: the lists py and .PY normalize identically, so the filter
verdict for a concrete file agrees between the two configurations. -/
theorem c10_witness :
    exCfgPy.file_extensions.map normExt = [".PY"].map normExt ∧
    shouldIncludeItem exCfgPy exPyFile 0 false (fun _ => false) [] [] true =
      shouldIncludeItem { exCfgPy with file_extensions := [".PY"] } exPyFile 0 false
        (fun _ => false) [] [] true :=
  ⟨by decide,
   c10_extension_normalization.2 exCfgPy [".PY"] exPyFile 0 false (fun _ => false) [] [] true
     (by decide)⟩

theorem errorBindE {α β : Type} (e : String) (k : α → Except String β) :
    (Except.error e : Except String α) >>= k = Except.error e := rfl

theorem collectFold_spec (dfs : DirFS) (root : AbsPath) (ds : List AbsPath) :
    ∀ (acc L : List String),
      ds.foldlM
        (fun acc d =>
          match dfs.gitignoreFile d with
          | none => pure acc
          | some lines =>
            match relativeTo d root with
            | none => .error "ValueError: path is not in the subpath of the root"
            | some segs =>
              pure (acc ++ (parseGitignoreLines lines).map (rewritePat (dirMarker segs))))
        acc = Except.ok L →
      (∀ q ∈ L, q ∈ acc ∨ ∃ d, d ∈ ds ∧ ∃ lines, dfs.gitignoreFile d = some lines ∧
          ∃ segs, relativeTo d root = some segs ∧
          ∃ pat, pat ∈ parseGitignoreLines lines ∧ q = rewritePat (dirMarker segs) pat)
      ∧ (∀ q ∈ acc, q ∈ L)
      ∧ (∀ d ∈ ds, ∀ lines, dfs.gitignoreFile d = some lines →
          ∀ segs, relativeTo d root = some segs →
          ∀ pat ∈ parseGitignoreLines lines, rewritePat (dirMarker segs) pat ∈ L) := by
  induction ds with
  | nil =>
    intro acc L h
    have h' : Except.ok acc = Except.ok L := h
    injection h' with h'
    subst h'
    refine ⟨fun q hq => Or.inl hq, fun q hq => hq, ?_⟩
    intro d hd
    cases hd
  | cons d ds ih =>
    intro acc L h
    cases hf : dfs.gitignoreFile d with
    | none =>
      simp only [List.foldlM_cons, hf, pure_bind] at h
      obtain ⟨ih1, ih2, ih3⟩ := ih acc L h
      refine ⟨?_, ih2, ?_⟩
      · intro q hq
        rcases ih1 q hq with hacc | ⟨d', hd', rest⟩
        · exact Or.inl hacc
        · exact Or.inr ⟨d', List.mem_cons_of_mem d hd', rest⟩
      · intro d' hd' lines hl segs hs pat hp
        rcases List.mem_cons.mp hd' with rfl | hd'
        · rw [hf] at hl
          cases hl
        · exact ih3 d' hd' lines hl segs hs pat hp
    | some lines =>
      cases hr : relativeTo d root with
      | none =>
        simp only [List.foldlM_cons, hf, hr, errorBindE] at h
        cases h
      | some segs =>
        simp only [List.foldlM_cons, hf, hr, pure_bind] at h
        obtain ⟨ih1, ih2, ih3⟩ :=
          ih (acc ++ (parseGitignoreLines lines).map (rewritePat (dirMarker segs))) L h
        refine ⟨?_, ?_, ?_⟩
        · intro q hq
          rcases ih1 q hq with hacc | ⟨d', hd', rest⟩
          · rcases List.mem_append.mp hacc with hacc | hmap
            · exact Or.inl hacc
            · obtain ⟨pat, hpat, hqe⟩ := List.mem_map.mp hmap
              exact Or.inr ⟨d, List.mem_cons_self d ds,
                lines, hf, segs, hr, pat, hpat, hqe.symm⟩
          · exact Or.inr ⟨d', List.mem_cons_of_mem d hd', rest⟩
        · intro q hq
          exact ih2 q (List.mem_append.mpr (Or.inl hq))
        · intro d' hd' lines' hl' segs' hs' pat hp
          rcases List.mem_cons.mp hd' with rfl | hd'
          · rw [hf] at hl'
            injection hl' with hl'
            subst hl'
            rw [hr] at hs'
            injection hs' with hs'
            subst hs'
            exact ih2 _ (List.mem_append.mpr (Or.inr (List.mem_map.mpr ⟨pat, hp, rfl⟩)))
          · exact ih3 d' hd' lines' hl' segs' hs' pat hp

/-- C4: in recursive mode every pattern collected from a nested .gitignore
at relative directory segs is the parsed pattern rewritten by prepending
the directory marker to the pattern body with the negation marker
preserved in front, and conversely each such rewritten pattern is
collected; the marker is empty for the root itself and the relative
directory followed by a slash for a proper subdirectory. -/
theorem c4_nested_pattern_prefixing :
    (∀ (dfs : DirFS) (gd : Option Int) (fuel : Nat) (root : AbsPath) (L : List String),
      collectPatternsE dfs gd fuel root = .ok L →
      (∀ q ∈ L, ∃ d, d ∈ walkDirs dfs gd fuel root ∧ ∃ lines,
          dfs.gitignoreFile d = some lines ∧ ∃ segs, relativeTo d root = some segs ∧
          ∃ pat, pat ∈ parseGitignoreLines lines ∧ q = rewritePat (dirMarker segs) pat)
      ∧ (∀ d ∈ walkDirs dfs gd fuel root, ∀ lines, dfs.gitignoreFile d = some lines →
          ∀ segs, relativeTo d root = some segs →
          ∀ pat ∈ parseGitignoreLines lines, rewritePat (dirMarker segs) pat ∈ L))
    ∧ (dirMarker [] = ""
       ∧ (∀ segs, joinSlash segs ≠ "." → dirMarker segs = joinSlash segs ++ "/")
       ∧ (∀ pfx pat, strStartsWith pat "!" = true →
           rewritePat pfx pat = "!" ++ (pfx ++ strLstripSlash (strDrop pat 1)))
       ∧ (∀ pfx pat, strStartsWith pat "!" = false →
           rewritePat pfx pat = pfx ++ strLstripSlash pat)) := by
  refine ⟨?_, rfl, ?_, ?_, ?_⟩
  · intro dfs gd fuel root L h
    unfold collectPatternsE at h
    obtain ⟨h1, h2, h3⟩ := collectFold_spec dfs root (walkDirs dfs gd fuel root) [] L h
    refine ⟨?_, h3⟩
    intro q hq
    rcases h1 q hq with hacc | hrest
    · cases hacc
    · exact hrest
  · intro segs h
    unfold dirMarker
    rw [if_neg h]
  · intro pfx pat h
    simp [rewritePat, h]
  · intro pfx pat h
    simp [rewritePat, h]

/-- C4 witness: under depth 1 the nested directory c is searched and the
pattern x from its .gitignore is collected rewritten with the marker c/,
yielding the collected pattern c/x. -/
theorem c4_witness :
    collectPatternsE exDFS (some 1) 10 exR = .ok ["c/x"] ∧
    rewritePat (dirMarker ["c"]) "x" ∈ ["c/x"] :=
  ⟨rfl,
   (c4_nested_pattern_prefixing.1 exDFS (some 1) 10 exR ["c/x"] rfl).2 exC (by decide)
     ["x"] (by decide) ["c"] (by decide) "x" (by decide)⟩

theorem listIsPre_length_le {a b : List String} (h : listIsPre a b = true) :
    a.length ≤ b.length := by
  induction a generalizing b with
  | nil => simp
  | cons x xs ih =>
    cases b with
    | nil => simp [listIsPre] at h
    | cons y ys =>
      simp only [listIsPre, Bool.and_eq_true] at h
      simp only [List.length_cons]
      exact Nat.succ_le_succ (ih h.2)

theorem listIsPre_append {a b : List String} (l : List String) (h : listIsPre a b = true) :
    listIsPre a (b ++ l) = true := by
  induction a generalizing b with
  | nil => rfl
  | cons x xs ih =>
    cases b with
    | nil => simp [listIsPre] at h
    | cons y ys =>
      simp only [List.cons_append, listIsPre, Bool.and_eq_true] at h ⊢
      exact ⟨h.1, ih h.2⟩

theorem dropAppendLe {α : Type} (l1 l2 : List α) (k : Nat) (h : k ≤ l1.length) :
    (l1 ++ l2).drop k = l1.drop k ++ l2 := by
  induction l1 generalizing k with
  | nil =>
    have : k = 0 := Nat.le_zero.mp h
    subst this
    simp
  | cons a as ih =>
    cases k with
    | zero => simp
    | succ k =>
      simp only [List.cons_append, List.drop_succ_cons]
      exact ih k (Nat.le_of_succ_le_succ h)

theorem relativeTo_child {c d root : AbsPath} {segs : List String} {nm : String}
    (h : relativeTo d root = some segs) (ha : c.anchor = d.anchor)
    (hs : c.segs = d.segs ++ [nm]) :
    relativeTo c root = some (segs ++ [nm]) := by
  unfold relativeTo at h ⊢
  by_cases hcond : (d.anchor == root.anchor && listIsPre root.segs d.segs) = true
  · rw [if_pos hcond] at h
    injection h with h
    simp only [Bool.and_eq_true, beq_iff_eq] at hcond
    rw [if_pos (by
      simp only [Bool.and_eq_true, beq_iff_eq]
      exact ⟨ha.trans hcond.1, by rw [hs]; exact listIsPre_append [nm] hcond.2⟩)]
    rw [hs, dropAppendLe d.segs [nm] root.segs.length (listIsPre_length_le hcond.2), h]
  · rw [if_neg hcond] at h
    cases h

theorem relativeTo_self (p : AbsPath) : relativeTo p p = some [] := by
  unfold relativeTo
  rw [if_pos (by simp [listIsPre_refl])]
  simp

theorem walkGo_nodup (dfs : DirFS) (gd : Option Int) (root : AbsPath) :
    ∀ (fuel : Nat) (stack visited : List AbsPath),
      (walkGo dfs gd root fuel stack visited).Nodup ∧
      ∀ x ∈ walkGo dfs gd root fuel stack visited, x ∉ visited := by
  intro fuel
  induction fuel with
  | zero =>
    intro stack visited
    exact ⟨List.nodup_nil, by intro x hx; cases hx⟩
  | succ fuel ih =>
    intro stack visited
    cases stack with
    | nil => exact ⟨List.nodup_nil, by intro x hx; cases hx⟩
    | cons d stack =>
      simp only [walkGo]
      by_cases hv : d ∈ visited
      · rw [if_pos hv]
        exact ih stack visited
      · rw [if_neg hv]
        by_cases hw : withinDepth gd root d = true
        · rw [if_pos hw]
          obtain ⟨hnd, hnv⟩ := ih ((childDirs dfs d).reverse ++ stack) (d :: visited)
          refine ⟨List.nodup_cons.mpr ⟨?_, hnd⟩, ?_⟩
          · intro hd
            exact hnv d hd (List.mem_cons_self d visited)
          · intro x hx
            rcases List.mem_cons.mp hx with rfl | hx
            · exact hv
            · intro hxv
              exact hnv x hx (List.mem_cons_of_mem d hxv)
        · rw [if_neg hw]
          obtain ⟨hnd, hnv⟩ := ih stack (d :: visited)
          refine ⟨List.nodup_cons.mpr ⟨?_, hnd⟩, ?_⟩
          · intro hd
            exact hnv d hd (List.mem_cons_self d visited)
          · intro x hx
            rcases List.mem_cons.mp hx with rfl | hx
            · exact hv
            · intro hxv
              exact hnv x hx (List.mem_cons_of_mem d hxv)

theorem walkGo_origin (dfs : DirFS) (gd : Option Int) (root : AbsPath) :
    ∀ (fuel : Nat) (stack visited : List AbsPath),
      (∀ s ∈ stack, s = root ∨ ∃ par, s ∈ childDirs dfs par) →
      ∀ x ∈ walkGo dfs gd root fuel stack visited,
        x = root ∨ ∃ par, x ∈ childDirs dfs par := by
  intro fuel
  induction fuel with
  | zero =>
    intro stack visited hstack x hx
    cases hx
  | succ fuel ih =>
    intro stack visited hstack x hx
    cases stack with
    | nil => cases hx
    | cons d stack =>
      simp only [walkGo] at hx
      by_cases hv : d ∈ visited
      · rw [if_pos hv] at hx
        exact ih stack visited (fun s hs => hstack s (List.mem_cons_of_mem d hs)) x hx
      · rw [if_neg hv] at hx
        by_cases hw : withinDepth gd root d = true
        · rw [if_pos hw] at hx
          rcases List.mem_cons.mp hx with rfl | hx
          · exact hstack x (List.mem_cons_self x stack)
          · refine ih _ _ ?_ x hx
            intro s hs
            rcases List.mem_append.mp hs with hs | hs
            · exact Or.inr ⟨d, List.mem_reverse.mp hs⟩
            · exact hstack s (List.mem_cons_of_mem d hs)
        · rw [if_neg hw] at hx
          rcases List.mem_cons.mp hx with rfl | hx
          · exact hstack x (List.mem_cons_self x stack)
          · exact ih stack (d :: visited)
              (fun s hs => hstack s (List.mem_cons_of_mem d hs)) x hx

theorem walkGo_depth (dfs : DirFS) (root : AbsPath) (n : Int) (hwf : wfDirFS dfs) :
    ∀ (fuel : Nat) (stack visited : List AbsPath),
      (∀ s ∈ stack, ∃ segs, relativeTo s root = some segs ∧ (segs.length : Int) ≤ n + 1) →
      ∀ x ∈ walkGo dfs (some n) root fuel stack visited,
        ∃ segs, relativeTo x root = some segs ∧ (segs.length : Int) ≤ n + 1 := by
  intro fuel
  induction fuel with
  | zero =>
    intro stack visited hstack x hx
    cases hx
  | succ fuel ih =>
    intro stack visited hstack x hx
    cases stack with
    | nil => cases hx
    | cons d stack =>
      simp only [walkGo] at hx
      by_cases hv : d ∈ visited
      · rw [if_pos hv] at hx
        exact ih stack visited (fun s hs => hstack s (List.mem_cons_of_mem d hs)) x hx
      · rw [if_neg hv] at hx
        by_cases hw : withinDepth (some n) root d = true
        · rw [if_pos hw] at hx
          rcases List.mem_cons.mp hx with rfl | hx
          · exact hstack x (List.mem_cons_self x stack)
          · refine ih _ _ ?_ x hx
            intro s hs
            rcases List.mem_append.mp hs with hs | hs
            · have hsc : s ∈ childDirs dfs d := List.mem_reverse.mp hs
              have hsc2 : s ∈ dfs.children d := (List.mem_filter.mp hsc).1
              obtain ⟨ha, nm, hsegs⟩ := hwf d s hsc2
              unfold withinDepth at hw
              cases hrel : relativeTo d root with
              | none => rw [hrel] at hw; cases hw
              | some dsegs =>
                rw [hrel] at hw
                refine ⟨dsegs ++ [nm], relativeTo_child hrel ha hsegs, ?_⟩
                have hle : (dsegs.length : Int) ≤ n := by
                  simpa using hw
                simp only [List.length_append, List.length_singleton]
                push_cast
                omega
            · exact hstack s (List.mem_cons_of_mem d hs)
        · rw [if_neg hw] at hx
          rcases List.mem_cons.mp hx with rfl | hx
          · exact hstack x (List.mem_cons_self x stack)
          · exact ih stack (d :: visited)
              (fun s hs => hstack s (List.mem_cons_of_mem d hs)) x hx

/-- C9: the claim holds for symlink skipping and no-revisit, but its depth
part fails: _walk_dirs yields a directory before the depth test, so a
directory one level beyond the configured depth is still visited and
searched for a .gitignore.  With depth 0, the child c of the root is out of
depth, yet the collected patterns contain its rewritten pattern c/x. -/
theorem c9_counterexample :
    withinDepth (some 0) exR exC = false ∧
    exC ∈ walkDirs exDFS (some 0) 10 exR ∧
    collectPatternsE exDFS (some 0) 10 exR = .ok ["c/x"] :=
  ⟨by decide, by decide, rfl⟩

/-- C9 (amended): the walk never revisits a directory, every visited
directory other than the root was pushed as a non-symlink child directory,
and - on a well-formed directory listing with a configured depth n - every
visited directory lies at relative depth at most n plus one: descent stops
below out-of-depth directories, but a directory one level past the limit
is still visited (and hence searched for a .gitignore). -/
theorem c9_walk_amended :
    (∀ (dfs : DirFS) (gd : Option Int) (fuel : Nat) (root : AbsPath),
      (walkDirs dfs gd fuel root).Nodup)
    ∧ (∀ (dfs : DirFS) (gd : Option Int) (fuel : Nat) (root : AbsPath),
      ∀ x ∈ walkDirs dfs gd fuel root,
        x = root ∨ ∃ par, x ∈ dfs.children par ∧ dfs.isDirB x = true ∧
          dfs.isSymlink x = false)
    ∧ (∀ (dfs : DirFS) (n : Int) (fuel : Nat) (root : AbsPath), wfDirFS dfs → 0 ≤ n →
      ∀ x ∈ walkDirs dfs (some n) fuel root,
        ∃ segs, relativeTo x root = some segs ∧ (segs.length : Int) ≤ n + 1) := by
  refine ⟨?_, ?_, ?_⟩
  · intro dfs gd fuel root
    exact (walkGo_nodup dfs gd root fuel [root] []).1
  · intro dfs gd fuel root x hx
    rcases walkGo_origin dfs gd root fuel [root] []
        (by
          intro s hs
          rcases List.mem_singleton.mp hs with rfl
          exact Or.inl rfl) x hx with hr | ⟨par, hpar⟩
    · exact Or.inl hr
    · obtain ⟨hmem, hfilt⟩ := List.mem_filter.mp hpar
      simp only [Bool.and_eq_true, Bool.not_eq_true'] at hfilt
      exact Or.inr ⟨par, hmem, hfilt.1, hfilt.2⟩
  · intro dfs n fuel root hwf hn x hx
    refine walkGo_depth dfs root n hwf fuel [root] [] ?_ x hx
    intro s hs
    rcases List.mem_singleton.mp hs with rfl
    refine ⟨[], relativeTo_self s, ?_⟩
    simp only [List.length_nil, Int.natCast_zero]
    omega

theorem exDFS_wf : wfDirFS exDFS := by
  intro d c hc
  have hc2 : c ∈ (if d = exR then [exC] else []) := hc
  by_cases hd : d = exR
  · rw [if_pos hd] at hc2
    rcases List.mem_singleton.mp hc2 with rfl
    subst hd
    exact ⟨rfl, "c", rfl⟩
  · rw [if_neg hd] at hc2
    cases hc2

/-- C9 witness: the example listing is well-formed and the visited nested
directory c sits at relative depth 1, within the amended bound 0 + 1. -/
theorem c9_witness :
    wfDirFS exDFS ∧
    ∃ segs, relativeTo exC exR = some segs ∧ (segs.length : Int) ≤ 0 + 1 :=
  ⟨exDFS_wf, c9_walk_amended.2.2 exDFS 0 10 exR exDFS_wf (by decide) exC (by decide)⟩

theorem literalMissing_cons (fs : FS) (s : String) (rest : List String) :
    literalMissing fs (s :: rest) =
      ((!isGlobStr s && !fs.pathExists s) || literalMissing fs rest) := rfl

theorem resolveArgsE_cons (fs : FS) (base : AbsPath) (s : String) (rest : List String) :
    resolveArgsE fs base (s :: rest) =
      if isGlobStr s then
        match resolveArgsE fs base rest with
        | .error e => .error e
        | .ok tail =>
          .ok ((resolveGlobE fs base s).1 ++ tail.1, (resolveGlobE fs base s).2 ++ tail.2)
      else
        match resolveSingleE fs base s with
        | .error e => .error e
        | .ok p =>
          match resolveArgsE fs base rest with
          | .error e => .error e
          | .ok tail => .ok (p :: tail.1, tail.2) := by
  by_cases hg : isGlobStr s
  · cases hr : resolveArgsE fs base rest with
    | error e =>
      conv_lhs => rw [resolveArgsE]
      rw [hr]
      simp only [if_pos hg]
      rfl
    | ok tail =>
      conv_lhs => rw [resolveArgsE]
      rw [hr]
      simp only [if_pos hg]
      rfl
  · cases hs : resolveSingleE fs base s with
    | error e =>
      conv_lhs => rw [resolveArgsE]
      rw [hs]
      simp only [if_neg hg]
      rfl
    | ok p =>
      cases hr : resolveArgsE fs base rest with
      | error e =>
        conv_lhs => rw [resolveArgsE]
        rw [hs, hr]
        simp only [if_neg hg]
        rfl
      | ok tail =>
        conv_lhs => rw [resolveArgsE]
        rw [hs, hr]
        simp only [if_neg hg]
        rfl

theorem resolveArgsE_error_iff (fs : FS) (base : AbsPath) (strs : List String) :
    (∃ e, resolveArgsE fs base strs = .error e) ↔ literalMissing fs strs = true := by
  induction strs with
  | nil =>
    constructor
    · rintro ⟨e, he⟩
      cases he
    · intro h
      cases h
  | cons s rest ih =>
    rw [resolveArgsE_cons, literalMissing_cons]
    by_cases hg : isGlobStr s
    · rw [if_pos hg]
      simp only [hg, Bool.not_true, Bool.false_and, Bool.false_or]
      cases hr : resolveArgsE fs base rest with
      | error e =>
        constructor
        · intro _
          exact ih.mp ⟨e, hr⟩
        · intro _
          exact ⟨e, rfl⟩
      | ok tail =>
        constructor
        · rintro ⟨e, he⟩
          cases he
        · intro hlm
          obtain ⟨e, he⟩ := ih.mpr hlm
          rw [he] at hr
          cases hr
    · rw [if_neg hg]
      have hgf : isGlobStr s = false := by
        cases h : isGlobStr s
        · rfl
        · exact absurd h hg
      by_cases hp : fs.pathExists s = true
      · rw [show resolveSingleE fs base s = .ok (resolveRaw base (parseRaw s)) by
          unfold resolveSingleE; rw [if_pos hp]]
        simp only [hgf, Bool.not_false, Bool.true_and, hp, Bool.not_true, Bool.false_or]
        cases hr : resolveArgsE fs base rest with
        | error e =>
          constructor
          · intro _
            exact ih.mp ⟨e, hr⟩
          · intro _
            exact ⟨e, rfl⟩
        | ok tail =>
          constructor
          · rintro ⟨e, he⟩
            cases he
          · intro hlm
            obtain ⟨e, he⟩ := ih.mpr hlm
            rw [he] at hr
            cases hr
      · have hpf : fs.pathExists s = false := by
          cases h : fs.pathExists s
          · rfl
          · exact absurd h hp
        rw [show resolveSingleE fs base s =
            .error ("Given value for path does not exist: " ++ s) by
          unfold resolveSingleE; rw [hpf]; rfl]
        simp only [hgf, Bool.not_false, Bool.true_and, hpf, Bool.true_or]
        constructor
        · intro _
          trivial
        · intro _
          exact ⟨_, rfl⟩

theorem commonPathE_error_iff (l : List AbsPath) (hne : l ≠ []) :
    (∃ e, commonPathE l = .error e) ↔ anchorsAgree l = false := by
  cases l with
  | nil => exact absurd rfl hne
  | cons p ps =>
    unfold commonPathE
    dsimp only
    by_cases hag : anchorsAgree (p :: ps) = true
    · rw [if_pos hag, hag]
      constructor
      · rintro ⟨e, he⟩
        cases he
      · intro h
        cases h
    · have hagf : anchorsAgree (p :: ps) = false := by
        cases h : anchorsAgree (p :: ps)
        · rfl
        · exact absurd h hag
      rw [if_neg hag, hagf]
      constructor
      · intro _
        rfl
      · intro _
        exact ⟨_, rfl⟩

theorem resolvePathsE_error_iff (fs : FS) (base : AbsPath) (strs : List String) :
    (∃ e, resolvePathsE fs base strs = .error e) ↔
      (literalMissing fs strs = true ∨ noCommonAnchor fs base strs) := by
  rw [resolvePathsE_eq]
  by_cases hie : strs.isEmpty
  · rw [if_pos hie]
    have hnil : strs = [] := List.isEmpty_iff.mp hie
    subst hnil
    constructor
    · rintro ⟨e, he⟩
      cases he
    · rintro (h | h)
      · cases h
      · obtain ⟨cp, w, hcp, hne, _⟩ := h
        have h0 : (Except.ok (([] : List AbsPath), ([] : List String)) :
            Except String (List AbsPath × List String)) = .ok (cp, w) := hcp
        injection h0 with h0
        injection h0 with h1 h2
        exact (hne h1.symm).elim
  · rw [if_neg hie]
    have hsne : strs ≠ [] := by
      intro h
      rw [h] at hie
      exact hie rfl
    cases hargs : resolveArgsE fs base strs with
    | error e =>
      constructor
      · intro _
        exact Or.inl ((resolveArgsE_error_iff fs base strs).mp ⟨e, hargs⟩)
      · intro _
        exact ⟨e, rfl⟩
    | ok cw =>
      obtain ⟨cl, cww⟩ := cw
      dsimp only
      have hlm : literalMissing fs strs = false := by
        cases h : literalMissing fs strs
        · rfl
        · obtain ⟨e, he⟩ := (resolveArgsE_error_iff fs base strs).mpr h
          rw [he] at hargs
          cases hargs
      by_cases hcl : cl.isEmpty
      · rw [if_pos hcl]
        constructor
        · rintro ⟨e, he⟩
          cases he
        · rintro (h | h)
          · rw [hlm] at h
            cases h
          · obtain ⟨cp, w, hcp, hne, _⟩ := h
            rw [hargs] at hcp
            injection hcp with hcp
            injection hcp with h1 h2
            rw [← h1] at hne
            exact (hne (List.isEmpty_iff.mp hcl)).elim
      · rw [if_neg hcl]
        have hclne : cl ≠ [] := by
          intro h
          rw [h] at hcl
          exact hcl rfl
        cases hcp : commonPathE cl with
        | error e =>
          constructor
          · intro _
            refine Or.inr ⟨cl, cww, hargs, hclne, ?_⟩
            exact (commonPathE_error_iff cl hclne).mp ⟨e, hcp⟩
          · intro _
            exact ⟨e, rfl⟩
        | ok c =>
          constructor
          · rintro ⟨e, he⟩
            cases he
          · rintro (h | h)
            · rw [hlm] at h
              cases h
            · obtain ⟨cp, w, hcp2, hne, hag⟩ := h
              rw [hargs] at hcp2
              injection hcp2 with hcp2
              injection hcp2 with h1 h2
              obtain ⟨e, he⟩ := (commonPathE_error_iff cp hne).mpr hag
              rw [h1, he] at hcp
              cases hcp

theorem okBindE {α β : Type} (a : α) (k : α → Except String β) :
    (Except.ok a : Except String α) >>= k = k a := rfl

theorem runSelectionE_eq (fs : FS) (base : AbsPath)
    (cfgPaths cfgInclude cfgExclude : List String) :
    runSelectionE fs base cfgPaths cfgInclude cfgExclude =
      match resolvePathsE fs base (cfgPaths ++ cfgInclude) with
      | .error e => .error e
      | .ok inc =>
        match inc.1.getLast? with
        | none => .error "IndexError: list index out of range"
        | some root =>
          match resolvePathsE fs base cfgExclude with
          | .error e => .error e
          | .ok exc =>
            if inc.1.isEmpty then
              .error "Error: no included paths were found matching given args"
            else .ok (root, inc.1, exc.1.dropLast, inc.2 ++ exc.2) := by
  unfold runSelectionE
  cases h1 : resolvePathsE fs base (cfgPaths ++ cfgInclude) with
  | error e => rfl
  | ok inc =>
    obtain ⟨il, iw⟩ := inc
    rw [okBindE]
    dsimp only
    cases h2 : il.getLast? with
    | none => rfl
    | some root =>
      cases h3 : resolvePathsE fs base cfgExclude with
      | error e => rfl
      | ok exc => rfl

theorem getLastNoneNil {α : Type} (l : List α) (h : l.getLast? = none) : l = [] := by
  cases l with
  | nil => rfl
  | cons a t => simp at h

/-- C7: the selection pipeline exits with an error exactly under the three
fatal configuration conditions - a missing literal path argument, no
common ancestor computable across resolved paths (also for the exclude
list, which runs through the same resolver), or zero resolved include
paths - and a glob pattern matching nothing is non-fatal, contributing a
warning and zero paths. -/
theorem c7_fatal_conditions :
    (∀ (fs : FS) (base : AbsPath) (cfgPaths cfgInclude cfgExclude : List String),
      (∃ e, runSelectionE fs base cfgPaths cfgInclude cfgExclude = .error e) ↔
        fatalCondition fs base (cfgPaths ++ cfgInclude) cfgExclude)
    ∧ (∀ (fs : FS) (base : AbsPath) (pat : String),
        isGlobStr pat = true → fs.glob pat = [] →
        resolveGlobE fs base pat = ([], [globWarnMsg pat])) := by
  constructor
  · intro fs base cfgPaths cfgInclude cfgExclude
    rw [runSelectionE_eq]
    unfold fatalCondition
    cases hinc : resolvePathsE fs base (cfgPaths ++ cfgInclude) with
    | error e =>
      constructor
      · intro _
        rcases (resolvePathsE_error_iff fs base (cfgPaths ++ cfgInclude)).mp ⟨e, hinc⟩
          with h | h
        · exact Or.inl h
        · exact Or.inr (Or.inl h)
      · intro _
        exact ⟨e, rfl⟩
    | ok inc =>
      obtain ⟨il, iw⟩ := inc
      dsimp only
      cases h2 : il.getLast? with
      | none =>
        constructor
        · intro _
          refine Or.inr (Or.inr (Or.inl ?_))
          have hile : il = [] := getLastNoneNil il h2
          subst hile
          by_cases hne : (cfgPaths ++ cfgInclude) = []
          · exfalso
            rw [hne] at hinc
            have h0 : resolvePathsE fs base [] = .ok ([base], []) := rfl
            rw [h0] at hinc
            injection hinc with hinc
            injection hinc with ha hb
            cases ha
          · obtain ⟨cp, hcp, hcase⟩ := resolvePathsE_ok_structure hinc hne
            rcases hcase with ⟨hcpnil, _⟩ | ⟨c, hc, hil⟩
            · subst hcpnil
              exact ⟨hne, iw, hcp⟩
            · exfalso
              simp at hil
        · intro _
          exact ⟨_, rfl⟩
      | some root =>
        have hilne : il ≠ [] := by
          intro hnil
          rw [hnil] at h2
          simp at h2
        cases hexc : resolvePathsE fs base cfgExclude with
        | error e =>
          constructor
          · intro _
            rcases (resolvePathsE_error_iff fs base cfgExclude).mp ⟨e, hexc⟩ with h | h
            · exact Or.inr (Or.inr (Or.inr (Or.inl h)))
            · exact Or.inr (Or.inr (Or.inr (Or.inr h)))
          · intro _
            exact ⟨e, rfl⟩
        | ok exc =>
          have hie2 : il.isEmpty = false := by
            cases il with
            | nil => exact absurd rfl hilne
            | cons a t => rfl
          simp only [hie2, Bool.false_eq_true, if_false]
          have hincok : ¬(literalMissing fs (cfgPaths ++ cfgInclude) = true ∨
              noCommonAnchor fs base (cfgPaths ++ cfgInclude)) := by
            intro hc2
            obtain ⟨e, he⟩ :=
              (resolvePathsE_error_iff fs base (cfgPaths ++ cfgInclude)).mpr hc2
            rw [he] at hinc
            cases hinc
          have hexcok : ¬(literalMissing fs cfgExclude = true ∨
              noCommonAnchor fs base cfgExclude) := by
            intro hc2
            obtain ⟨e, he⟩ := (resolvePathsE_error_iff fs base cfgExclude).mpr hc2
            rw [he] at hexc
            cases hexc
          constructor
          · rintro ⟨e, he⟩
            cases he
          · intro hcond
            exfalso
            rcases hcond with h | h | h | h | h
            · exact hincok (Or.inl h)
            · exact hincok (Or.inr h)
            · obtain ⟨hne, w, hw⟩ := h
              obtain ⟨cp, hcp, hcase⟩ := resolvePathsE_ok_structure hinc hne
              rw [hw] at hcp
              injection hcp with hcp
              injection hcp with ha hb
              rcases hcase with ⟨_, hilnil⟩ | ⟨c, hc, hil⟩
              · exact hilne hilnil
              · rw [← ha] at hc
                cases hc
            · exact hexcok (Or.inl h)
            · exact hexcok (Or.inr h)
  · intro fs base pat hg hempty
    unfold resolveGlobE
    rw [hempty]

/-- C7 witness: the glob star pattern matches nothing on the example
filesystem, so glob resolution is non-fatal, yielding zero paths and one
warning. -/
theorem c7_witness :
    isGlobStr "*" = true ∧ exFS.glob "*" = [] ∧
    resolveGlobE exFS exBase "*" = ([], [globWarnMsg "*"]) :=
  ⟨by decide, rfl, c7_fatal_conditions.2 exFS exBase "*" (by decide) rfl⟩
